import Mathlib

/-!
# tHTTP — verification of the web-root scanner and connection protocol

A shallow embedding of the core of the tHTTP static file server:

* `scan_web_root` models `scan_web_root` in `src/main.c` (FTS directory
  walk with physical traversal, FTS_COMFOLLOW on the root, dot-entry
  skipping, `/index.html` suffix stripping, full-file reads into blobs,
  and `hsearch`-backed route registration).
* `socket_read` models `socket_read` in `src/socket.c` (bounded receive
  loop with a weird-length check distinct from hard read errors).
* `child_handle_client` models `child_handle_client` in `src/main.c`
  (literal `GET ` match, `strtok_r` path extraction, route lookup with a
  configured not-found fallback, and the fixed built-in 404 response).

Byte strings are modelled as `List Char` (one `Char` per byte; all data
relevant to the claims is ASCII).  A directory tree is the mutual
inductive `FNode`/`EntryList`; the scanner walks it in list order, the
way `fts_read` enumerates directory entries.  FTS path strings are built
exactly as the C library does: the parent path loses one trailing `/`
(the `NAPPEND` rule) and `"/" ++ name` is appended; routes are the FTS
path with the first `strlen(root)` bytes dropped.
-/

/-- One byte string: a list of characters standing for bytes. -/
abbrev Bytes := List Char

/-- Shorthand turning a string literal into the byte-list model. -/
def str (s : String) : Bytes := s.toList

/-! ## Exit codes from `diagnostics.h` (enum tHTTPError) -/

def EXIT_OK : Nat := 0
def EXIT_FTS_READ_FAILED : Nat := 10
def EXIT_SYMLINK_IN_WEB_ROOT : Nat := 11
def EXIT_FTS_UNUSUAL_FILE : Nat := 13
def EXIT_CYCLE_IN_WEB_ROOT : Nat := 14
def EXIT_FOPEN_FAILED : Nat := 16
def EXIT_MALLOC_FAILED : Nat := 17
def EXIT_FREAD_FAILED : Nat := 18
def EXIT_HSEARCH_TABLE_FULL : Nat := 19
def EXIT_SOCKET_READ_FAILED : Nat := 21
def EXIT_NON_GET_REQUEST : Nat := 22
def EXIT_SOCKET_WEIRD_RX_LENGTH : Nat := 23
def EXIT_WEIRD_REQUEST_PATH : Nat := 24
def EXIT_NOTFOUND_NOT_FOUND : Nat := 25

/-! ## The directory tree -/

mutual
/-- A node of the web-root tree.  `file` carries the size reported by
`stat` at scan time and the byte sequence actually readable from the
file (these differ when the file changes between `stat` and `fread`).
`symlinkTo`/`symlinkDangling` are symbolic links (FTS_SL / FTS_SLNONE);
`special` is anything that is neither a regular file, a directory nor a
symlink — FIFO, socket, device (FTS_DEFAULT). -/
inductive FNode where
  | file (stat : Nat) (content : Bytes)
  | dir (entries : EntryList)
  | symlinkTo (target : FNode)
  | symlinkDangling
  | special

/-- Directory entries in the order `fts_read` yields them. -/
inductive EntryList where
  | nil
  | cons (name : Bytes) (node : FNode) (rest : EntryList)
end

/-- Dot-entry test used by the scanner: `p->fts_name[0] == '.'`. -/
def dotName (n : Bytes) : Bool := n.head? = some '.'

/-- The `NAPPEND` rule of the C `fts` library: when building a child's
path the parent path loses one trailing slash. -/
def stripTrail (s : Bytes) : Bytes :=
  if s.getLast? = some '/' then s.dropLast else s

/-- FTS path of a child entry (`fts_path`): parent path (NAPPEND-adjusted) then
`'/'` then the entry name. -/
def childPath (parent name : Bytes) : Bytes := stripTrail parent ++ '/' :: name

/-- The `"/index.html"` suffix. -/
def index_suffix : Bytes := str "/index.html"

/-- Route normalization from `scan_web_root`: if the root-relative path
ends with `"/index.html"`, strip that suffix; if the result is empty the
route becomes `"/"`. -/
def stripIndexRoute (rel : Bytes) : Bytes :=
  if rel.length ≥ index_suffix.length ∧
      rel.drop (rel.length - index_suffix.length) = index_suffix then
    let r := rel.take (rel.length - index_suffix.length)
    if r = [] then ['/'] else r
  else rel

/-! ## The hsearch(3) table

`hsearch(FIND)` returns the entry for an exactly matching key or NULL.
`hsearch(ENTER)` returns the *existing* entry when the key is already
present (the new datum is discarded); it inserts otherwise, returning
NULL only when the table cannot take another entry.  The macOS
implementation the code relies on grows dynamically (see the comment at
`hcreate(1)` in `main.c`), so the model table is unbounded and `ENTER`
never fails. -/

def hsearchFind (tbl : List (Bytes × Bytes)) (key : Bytes) : Option Bytes :=
  match tbl with
  | [] => none
  | (k, v) :: rest => if k = key then some v else hsearchFind rest key

def hsearchEnter (tbl : List (Bytes × Bytes)) (key val : Bytes) :
    List (Bytes × Bytes) :=
  match hsearchFind tbl key with
  | some _ => tbl
  | none => tbl ++ [(key, val)]

/-- State accumulated by the scan: the route table and the longest
route length seen (`max_path_len_out`). -/
structure ScanState where
  table : List (Bytes × Bytes)
  maxLen : Nat
deriving DecidableEq, Repr

mutual
/-- Processing of one FTSENT by the `switch` in `scan_web_root`.
`base` is `strlen(path)` of the web root, `fp` the entry's `fts_path`,
`name` its `fts_name`.  Regular files (FTS_F): dot names are skipped,
otherwise the root-relative path is normalized into a route, the
longest-route bound is updated, the file is read fully (a byte count
differing from the stat size is fatal) and the route is entered into
the table.  Directories (FTS_D): dot names prune the subtree
(FTS_SKIP), otherwise the children are walked.  Symlinks (FTS_SL /
FTS_SLNONE) and special files (FTS_DEFAULT) are fatal. -/
def scanEntry (base : Nat) (fp name : Bytes) :
    FNode → ScanState → Except Nat ScanState
  | .file stat content, st =>
      if dotName name then .ok st
      else
        let route := stripIndexRoute (fp.drop base)
        let st1 : ScanState := { st with maxLen := max st.maxLen route.length }
        if content.length < stat then .error EXIT_FREAD_FAILED
        else .ok { st1 with table := hsearchEnter st1.table route (content.take stat) }
  | .dir es, st =>
      if dotName name then .ok st else scanL base fp es st
  | .symlinkTo _, _ => .error EXIT_SYMLINK_IN_WEB_ROOT
  | .symlinkDangling, _ => .error EXIT_SYMLINK_IN_WEB_ROOT
  | .special, _ => .error EXIT_FTS_UNUSUAL_FILE

/-- Walk the entries of one directory in order, threading the scan
state; the first fatal condition aborts the whole walk. -/
def scanL (base : Nat) (fp : Bytes) :
    EntryList → ScanState → Except Nat ScanState
  | .nil, st => .ok st
  | .cons name node rest, st =>
      match scanEntry base (childPath fp name) name node st with
      | .error e => .error e
      | .ok st2 => scanL base fp rest st2
end

/-- FTS_COMFOLLOW: a symbolic link given as the root path is followed
(chains fully resolved, as `stat` does); a dangling root link yields
FTS_SLNONE, i.e. no node. -/
def resolveRoot : FNode → Option FNode
  | .symlinkTo t => resolveRoot t
  | .symlinkDangling => none
  | n => some n

/-- Model of `scan_web_root(path, &max_path_len)`: the root FTSENT has
`fts_path = path` and `fts_name = path`, and `base_path_len` is
`strlen(path)`.  A dangling root symlink is FTS_SLNONE and fatal. -/
def scan_web_root (rootPath : Bytes) (root : FNode) : Except Nat ScanState :=
  match resolveRoot root with
  | none => .error EXIT_SYMLINK_IN_WEB_ROOT
  | some n => scanEntry rootPath.length rootPath rootPath n ⟨[], 0⟩

/-! ## The bounded receive loop (`socket_read` in `socket.c`) -/

/-- What one `read(2)` call on the connection can produce: a chunk of
bytes now available, end of stream (`read` returns 0), or a hard error
(`read` returns -1). -/
inductive RxEvent where
  | chunk (bytes : Bytes)
  | closed
  | rerror
deriving DecidableEq, Repr

/-- The `do { read } while (received < max_size)` loop: each read
delivers at most `max_size - received` bytes; a zero read breaks; a
negative read is the hard I/O failure `EXIT_SOCKET_READ_FAILED`.
An exhausted event list stands for the peer having closed. -/
def srLoop (maxSize : Nat) : List RxEvent → Bytes → Except Nat Bytes
  | [], acc => .ok acc
  | .rerror :: _, _ => .error EXIT_SOCKET_READ_FAILED
  | .closed :: _, acc => .ok acc
  | .chunk b :: rest, acc =>
      let acc2 := acc ++ b.take (maxSize - acc.length)
      if acc2.length < maxSize then srLoop maxSize rest acc2 else .ok acc2

/-- Model of `socket_read(ns, min_size, max_size)`: run the receive loop, then
reject a total outside `[min_size, max_size]` with the distinct
weird-length error `EXIT_SOCKET_WEIRD_RX_LENGTH`. -/
def socket_read (events : List RxEvent) (minSize maxSize : Nat) :
    Except Nat Bytes :=
  match srLoop maxSize events [] with
  | .error e => .error e
  | .ok acc =>
      if acc.length < minSize ∨ acc.length > maxSize then
        .error EXIT_SOCKET_WEIRD_RX_LENGTH
      else .ok acc

/-! ## The per-connection handler (`child_handle_client` in `main.c`) -/

/-- The `strtok_r` delimiter set `" \r\n\t"`. -/
def isDelim (c : Char) : Bool := c = ' ' || c = '\r' || c = '\n' || c = '\t'

/-- C-string view of a byte buffer: everything before the first NUL. -/
def cstr (b : Bytes) : Bytes := b.takeWhile (fun c => c ≠ '\x00')

/-- First token of `strtok_r(s, " \r\n\t", &saveptr)`: drop leading
delimiters, then the maximal delimiter-free run; NULL when only
delimiters remain. -/
def strtokFirst (b : Bytes) : Option Bytes :=
  let rest := b.dropWhile (fun c => isDelim c)
  if rest = [] then none else some (rest.takeWhile (fun c => !isDelim c))

/-- Decimal rendering of `%zu`. -/
def natBytes (n : Nat) : Bytes := (Nat.repr n).toList

/-- Header built by `asprintf("HTTP/1.1 %s\r\nContent-Length: %zu\r\n\r\n", status, n)`. -/
def responseHeader (status : Bytes) (clen : Nat) : Bytes :=
  str "HTTP/1.1 " ++ status ++ str "\r\nContent-Length: " ++ natBytes clen
    ++ str "\r\n\r\n"

/-- The fixed built-in response sent when the configured not-found
route itself misses. -/
def fallback404 : Bytes :=
  str "HTTP/1.1 404 NOT FOUND\r\nContent-Length: 13\r\n\r\n404 NOT FOUND"

/-- How one connection's worker ends: a normal `exit(EXIT_OK)` or a
`diag_fatal` with one of the `tHTTPError` codes.  Either way only the
forked child terminates. -/
inductive ConnOutcome where
  | ok
  | fatalExit (code : Nat)
deriving DecidableEq, Repr

/-- Model of `child_handle_client`: bounded receive sized by
`max_path_len + 5` (`'GET '` plus the path plus one delimiter), literal
`"GET "` match, `strtok_r` path extraction, the weird-path check, route
lookup, not-found fallback lookup, and response transmission.  Returns
the bytes sent to the peer and the worker's outcome. -/
def child_handle_client (table : List (Bytes × Bytes)) (notfound : Bytes)
    (maxPathLen : Nat) (events : List RxEvent) : Bytes × ConnOutcome :=
  match socket_read events 5 (maxPathLen + 5) with
  | .error e => ([], .fatalExit e)
  | .ok inBuf =>
    if inBuf.take 4 ≠ str "GET " then ([], .fatalExit EXIT_NON_GET_REQUEST)
    else
      match strtokFirst (cstr (inBuf.drop 4)) with
      | none => ([], .fatalExit EXIT_WEIRD_REQUEST_PATH)
      | some get_path =>
        if get_path.head? ≠ some '/' then ([], .fatalExit EXIT_WEIRD_REQUEST_PATH)
        else
          match hsearchFind table get_path with
          | some blob =>
              (responseHeader (str "200 OK") blob.length ++ blob, .ok)
          | none =>
              match hsearchFind table notfound with
              | some blob =>
                  (responseHeader (str "404 NOT FOUND") blob.length ++ blob, .ok)
              | none => (fallback404, .fatalExit EXIT_NOTFOUND_NOT_FOUND)

/-- The accept loop forks one isolated worker per connection; the
listener and later connections are untouched by any single worker's
outcome. -/
def serveConnections (table : List (Bytes × Bytes)) (notfound : Bytes)
    (maxPathLen : Nat) (conns : List (List RxEvent)) :
    List (Bytes × ConnOutcome) :=
  conns.map (child_handle_client table notfound maxPathLen)

/-! ## Specification-side helpers -/

/-- Joined path `"/c1/c2/.../cn"` — the root-relative FTS path of an entry reached
through the listed name components. -/
def joinComps : List Bytes → Bytes
  | [] => []
  | c :: rest => '/' :: (c ++ joinComps rest)

/-- The canonical route of a file reached through `comps`. -/
def routeOfComps (comps : List Bytes) : Bytes :=
  stripIndexRoute (joinComps comps)

mutual
/-- Resolve a component path inside a node to a regular file. -/
def fileAtN : FNode → List Bytes → Option (Nat × Bytes)
  | .file stat content, [] => some (stat, content)
  | .dir es, n :: cs => fileAtL es (n :: cs)
  | _, _ => none

/-- Resolve a component path against a directory's entries (first
matching name wins, as directory lookup does). -/
def fileAtL : EntryList → List Bytes → Option (Nat × Bytes)
  | .nil, _ => none
  | .cons _ _ _, [] => none
  | .cons name node rest, n :: cs =>
      if name = n then fileAtN node cs else fileAtL rest (n :: cs)
end

mutual
/-- All component paths of regular files anywhere in a node (also ones
shadowed by duplicate sibling names). -/
def rawPathsN : FNode → List (List Bytes)
  | .file _ _ => [[]]
  | .dir es => rawPathsL es
  | _ => []

def rawPathsL : EntryList → List (List Bytes)
  | .nil => []
  | .cons name node rest =>
      (rawPathsN node).map (fun p => name :: p) ++ rawPathsL rest
end

/-- A name a real filesystem can hold: non-empty and slash-free. -/
def goodName (n : Bytes) : Bool := n ≠ [] && !n.contains '/'

mutual
/-- Well-formedness of a tree: every entry name anywhere is a
`goodName`. -/
def wfN : FNode → Bool
  | .dir es => wfL es
  | _ => true

def wfL : EntryList → Bool
  | .nil => true
  | .cons name node rest => goodName name && wfN node && wfL rest
end

/-- Concatenation of entry lists (used to speak about an entry sitting
at an arbitrary position among its siblings). -/
def appendE : EntryList → EntryList → EntryList
  | .nil, es => es
  | .cons name node rest, es => .cons name node (appendE rest es)

/-- Regular file or directory — the two node kinds the dot-skip rules
apply to. -/
def isFileOrDir : FNode → Bool
  | .file _ _ => true
  | .dir _ => true
  | _ => false

mutual
/-- Does the walk encounter this entry as a symbolic link?  A symlink
is classified by its type before any name check, so even a dot-named
symlink counts; a dot-named directory prunes its whole subtree. -/
def reachesSymlinkE (name : Bytes) : FNode → Bool
  | .symlinkTo _ => true
  | .symlinkDangling => true
  | .dir es => !dotName name && reachesSymlinkL es
  | _ => false

/-- Does the walk, with its dot-directory pruning, encounter a symbolic
link somewhere in this entry list? -/
def reachesSymlinkL : EntryList → Bool
  | .nil => false
  | .cons name node rest => reachesSymlinkE name node || reachesSymlinkL rest
end

/-- Characters that can appear in a requestable route: anything that is
neither a `strtok` delimiter nor NUL. -/
def routeChar (c : Char) : Bool := !isDelim c && c ≠ '\x00'

/-! ## Abort propagation lemmas for the scanner -/

mutual
/-- A directory entry that the walk sees as a symbolic link makes its
processing fail. -/
theorem scanEntry_symlink_fails (base : Nat) (fp name : Bytes) (n : FNode)
    (st : ScanState) (h : reachesSymlinkE name n = true) :
    ∀ st', scanEntry base fp name n st ≠ .ok st' := by
  cases n with
  | file stat content => simp [reachesSymlinkE] at h
  | special => simp [reachesSymlinkE] at h
  | symlinkTo t => intro st'; simp [scanEntry]
  | symlinkDangling => intro st'; simp [scanEntry]
  | dir es =>
      simp only [reachesSymlinkE, Bool.and_eq_true, Bool.not_eq_true'] at h
      intro st'
      simp only [scanEntry, h.1, if_false]
      exact scanL_symlink_fails base fp es st h.2 st'

/-- An entry list in which the walk encounters a symbolic link never
scans successfully. -/
theorem scanL_symlink_fails (base : Nat) (fp : Bytes) (es : EntryList)
    (st : ScanState) (h : reachesSymlinkL es = true) :
    ∀ st', scanL base fp es st ≠ .ok st' := by
  cases es with
  | nil => simp [reachesSymlinkL] at h
  | cons name node rest =>
      simp only [reachesSymlinkL, Bool.or_eq_true] at h
      intro st'
      simp only [scanL]
      cases hse : scanEntry base (childPath fp name) name node st with
      | error e => simp
      | ok st2 =>
          rcases h with h | h
          · exact absurd hse (scanEntry_symlink_fails base (childPath fp name) name node st h st2)
          · exact scanL_symlink_fails base fp rest st2 h st'
end

/-! ## C3 — symbolic links -/

/-- C3 (amended): a symbolic link encountered anywhere *inside* the
tree (the walk pruning dot-directories, which are never entered) makes
the whole scan abort fatally; no route table is ever produced.  (As
stated the claim is false for the root path itself: `fts_open` is
called with FTS_COMFOLLOW, so a symlink given as the root is followed —
see `C3_root_symlink_followed`.) -/
theorem C3_nested_symlink_aborts (rootPath : Bytes) (es : EntryList)
    (hdot : dotName rootPath = false) (hsl : reachesSymlinkL es = true) :
    (scan_web_root rootPath (.dir es)).isOk = false := by
  have hfail : ∀ st', scan_web_root rootPath (.dir es) ≠ .ok st' := by
    intro st'
    simp only [scan_web_root, resolveRoot]
    simp only [scanEntry, hdot, if_false]
    exact scanL_symlink_fails rootPath.length rootPath es ⟨[], 0⟩ hsl st'
  cases hres : scan_web_root rootPath (.dir es) with
  | error e => rfl
  | ok st' => exact absurd hres (hfail st')

/-- Witness for C3: a dangling symlink directly under the root aborts
the scan. -/
theorem C3_nested_symlink_aborts_witness :
    (scan_web_root (str "r")
      (.dir (.cons (str "s") .symlinkDangling .nil))).isOk = false :=
  C3_nested_symlink_aborts (str "r") (.cons (str "s") .symlinkDangling .nil)
    (by decide) (by decide)

/-- Counterexample to C3 as stated: a symbolic link *as the input root
path itself* is followed (FTS_COMFOLLOW), so the scan completes instead
of aborting. -/
theorem C3_root_symlink_followed :
    scan_web_root (str "r") (.symlinkTo (.dir .nil)) = .ok ⟨[], 0⟩ := rfl

/-! ## C5 — dot-named files and directories are skipped silently -/

/-- C5: a dot-named entry that is a regular file or a directory
contributes nothing to the scan, wherever it sits among its siblings:
the scan of an entry list containing it equals the scan of the list
without it — no route from it (or from anything below it, however
deeply nested), and no error from it. -/
theorem C5_dot_entries_invisible (base : Nat) (fp name : Bytes) (node : FNode)
    (hdot : dotName name = true) (hfd : isFileOrDir node = true)
    (cs1 : EntryList) :
    ∀ (cs2 : EntryList) (st : ScanState),
      scanL base fp (appendE cs1 (.cons name node cs2)) st
        = scanL base fp (appendE cs1 cs2) st := by
  cases cs1 with
  | nil =>
      intro cs2 st
      cases node with
      | file stat content => simp [appendE, scanL, scanEntry, hdot]
      | dir es => simp [appendE, scanL, scanEntry, hdot]
      | symlinkTo t => simp [isFileOrDir] at hfd
      | symlinkDangling => simp [isFileOrDir] at hfd
      | special => simp [isFileOrDir] at hfd
  | cons n0 node0 rest0 =>
      intro cs2 st
      simp only [appendE, scanL]
      cases scanEntry base (childPath fp n0) n0 node0 st with
      | error e => rfl
      | ok st2 =>
          exact C5_dot_entries_invisible base fp name node hdot hfd rest0 cs2 st2

/-- Witness for C5: a dot-directory with a file below it, sitting
between two ordinary files, scans exactly like the list without it. -/
theorem C5_dot_entries_invisible_witness :
    scanL 1 (str "r")
      (appendE (.cons (str "a") (.file 0 []) .nil)
        (.cons (str ".g") (.dir (.cons (str "f") (.file 0 []) .nil))
          (.cons (str "b") (.file 0 []) .nil)))
      ⟨[], 0⟩
      = scanL 1 (str "r")
        (appendE (.cons (str "a") (.file 0 []) .nil)
          (.cons (str "b") (.file 0 []) .nil))
        ⟨[], 0⟩ :=
  C5_dot_entries_invisible 1 (str "r") (str ".g")
    (.dir (.cons (str "f") (.file 0 []) .nil)) (by decide) (by decide)
    (.cons (str "a") (.file 0 []) .nil)
    (.cons (str "b") (.file 0 []) .nil) ⟨[], 0⟩

/-! ## C6 — short reads abort the scan -/

/-- C6: when the scanner reaches a non-dot regular file whose readable
bytes fall short of the size `stat` reported (the file shrank or a read
failed), the whole scan aborts with `EXIT_FREAD_FAILED` — so no
partially-read blob is ever inserted and nothing is served. -/
theorem C6_short_read_aborts (base : Nat) (fp name : Bytes)
    (stat : Nat) (content : Bytes) (cs1 : EntryList) (cs2 : EntryList)
    (st st' : ScanState)
    (hdot : dotName name = false) (hshort : content.length < stat)
    (hok : scanL base fp cs1 st = .ok st') :
    scanL base fp (appendE cs1 (.cons name (.file stat content) cs2)) st
      = .error EXIT_FREAD_FAILED := by
  cases cs1 with
  | nil =>
      simp [appendE, scanL, scanEntry, hdot, hshort]
  | cons n0 node0 rest0 =>
      simp only [appendE, scanL] at hok ⊢
      cases hse : scanEntry base (childPath fp n0) n0 node0 st with
      | error e => rw [hse] at hok; exact absurd hok (by simp)
      | ok st2 =>
          rw [hse] at hok
          exact C6_short_read_aborts base fp name stat content rest0 cs2 st2 st'
            hdot hshort hok

/-- Witness for C6: a file whose stat size is 2 but whose readable
content is one byte aborts the scan that had accepted an earlier file. -/
theorem C6_short_read_aborts_witness :
    scanL 1 (str "r")
      (appendE (.cons (str "a") (.file 1 (str "x")) .nil)
        (.cons (str "b") (.file 2 (str "y")) .nil))
      ⟨[], 0⟩ = .error EXIT_FREAD_FAILED :=
  C6_short_read_aborts 1 (str "r") (str "b") 2 (str "y")
    (.cons (str "a") (.file 1 (str "x")) .nil) .nil
    ⟨[], 0⟩ ⟨[(str "/a", str "x")], 2⟩ (by decide) (by decide) rfl

/-! ## C10 — the type check precedes the dot-name check -/

/-- C10: an entry that is neither a regular file nor a directory is
fatal even when its name begins with a dot — the FTS type dispatch
happens before any dot check, so a dot-named FIFO/socket/device
(FTS_DEFAULT) aborts the scan with `EXIT_FTS_UNUSUAL_FILE` instead of
being skipped. -/
theorem C10_dot_special_aborts (base : Nat) (fp name : Bytes)
    (cs1 : EntryList) (cs2 : EntryList) (st st' : ScanState)
    (hdot : dotName name = true)
    (hok : scanL base fp cs1 st = .ok st') :
    scanL base fp (appendE cs1 (.cons name .special cs2)) st
      = .error EXIT_FTS_UNUSUAL_FILE := by
  cases cs1 with
  | nil => simp [appendE, scanL, scanEntry]
  | cons n0 node0 rest0 =>
      simp only [appendE, scanL] at hok ⊢
      cases hse : scanEntry base (childPath fp n0) n0 node0 st with
      | error e => rw [hse] at hok; exact absurd hok (by simp)
      | ok st2 =>
          rw [hse] at hok
          exact C10_dot_special_aborts base fp name rest0 cs2 st2 st' hdot hok

/-- Witness for C10: a FIFO named `.p` next to an ordinary file aborts
the scan. -/
theorem C10_dot_special_aborts_witness :
    scanL 1 (str "r")
      (appendE (.cons (str "a") (.file 1 (str "x")) .nil)
        (.cons (str ".p") .special .nil))
      ⟨[], 0⟩ = .error EXIT_FTS_UNUSUAL_FILE :=
  C10_dot_special_aborts 1 (str "r") (str ".p")
    (.cons (str "a") (.file 1 (str "x")) .nil) .nil
    ⟨[], 0⟩ ⟨[(str "/a", str "x")], 2⟩ (by decide) rfl

/-! ## C2 — `index.html` routes -/

/-- Counterexample to C2 as stated: `d/index.html` is *not* served at a
route that keeps the directory's trailing slash.  The scan inserts
exactly the route `/d` (suffix `/index.html` cut, the leading slash of
the root-relative path kept, no trailing slash); neither `d/` nor `/d/`
is a key of the resulting table. -/
theorem C2_counterexample :
    scan_web_root (str "r")
        (.dir (.cons (str "d")
          (.dir (.cons (str "index.html") (.file 1 (str "x")) .nil)) .nil))
      = .ok ⟨[(str "/d", str "x")], 2⟩
    ∧ hsearchFind [(str "/d", str "x")] (str "d/") = none
    ∧ hsearchFind [(str "/d", str "x")] (str "/d/") = none := by
  refine ⟨rfl, by decide, by decide⟩

/-! ## C4 — duplicate routes -/

/-- Counterexample to C4 as stated: two files mapping to the same route
do *not* make the scan abort.  `hsearch(ENTER)` returns the existing
entry when the key is already present (NULL only for a full table), so
the second insertion is silently dropped and the scan succeeds with the
first file's blob. -/
theorem C4_counterexample :
    scan_web_root (str "r")
        (.dir (.cons (str "a") (.file 1 (str "x"))
          (.cons (str "a") (.file 1 (str "y")) .nil)))
      = .ok ⟨[(str "/a", str "x")], 2⟩ := rfl

/-- C4 (amended): inserting a route that is already present keeps the
existing entry and continues the scan — the first file wins and the
second blob is discarded; only a table that cannot take another entry
would make `hsearch` fail, which the dynamically growing table never
does. -/
theorem C4_duplicate_keeps_first (c1 c2 : Bytes) :
    scan_web_root (str "r")
        (.dir (.cons (str "a") (.file c1.length c1)
          (.cons (str "a") (.file c2.length c2) .nil)))
      = .ok ⟨[(str "/a", c1)], 2⟩
    ∧ ∀ (tbl : List (Bytes × Bytes)) (k v w : Bytes),
        hsearchFind tbl k = some w → hsearchEnter tbl k v = tbl := by
  constructor
  · simp [scan_web_root, resolveRoot, scanEntry, scanL, childPath, stripTrail,
      stripIndexRoute, dotName, index_suffix, hsearchEnter, hsearchFind, str,
      List.take_length]
  · intro tbl k v w hf
    simp [hsearchEnter, hf]

/-! ## C9 — route shape and the trailing-slash web root -/

/-- C9 fails on the code: with the web root written with a trailing
slash (`"r/"`), fts builds the child path `r/f` (NAPPEND removes the
parent's trailing slash before appending `/f`), so stripping
`strlen("r/") = 2` leading bytes leaves the route `f` — non-empty but
*not* beginning with `/`, against the invariant and against the
comment in `scan_web_root` that claims trailing slashes are harmless. -/
theorem C9_trailing_slash_root_breaks_invariant :
    scan_web_root (str "r/") (.dir (.cons (str "f") (.file 1 (str "x")) .nil))
      = .ok ⟨[(str "f", str "x")], 1⟩
    ∧ (str "f").head? ≠ some '/' := by
  refine ⟨rfl, by decide⟩

/-! ## C7 — the double-404 fallback -/

/-- C7: when the requested path misses the route table and the
configured not-found route also misses, the worker sends exactly the
bytes `HTTP/1.1 404 NOT FOUND\r\nContent-Length: 13\r\n\r\n404 NOT
FOUND` and terminates with the dedicated fatal code
`EXIT_NOTFOUND_NOT_FOUND` (25); only that connection's forked worker
ends — the accept loop serves every other connection unchanged. -/
theorem C7_notfound_notfound (table : List (Bytes × Bytes)) (nf : Bytes)
    (maxLen : Nat) (events : List RxEvent) (buf path : Bytes)
    (hrd : socket_read events 5 (maxLen + 5) = .ok buf)
    (hget : buf.take 4 = str "GET ")
    (htok : strtokFirst (cstr (buf.drop 4)) = some path)
    (hslash : path.head? = some '/')
    (hmiss : hsearchFind table path = none)
    (hnf : hsearchFind table nf = none) :
    child_handle_client table nf maxLen events
      = (str "HTTP/1.1 404 NOT FOUND\r\nContent-Length: 13\r\n\r\n404 NOT FOUND",
         .fatalExit EXIT_NOTFOUND_NOT_FOUND)
    ∧ (∀ conns, serveConnections table nf maxLen (events :: conns)
        = child_handle_client table nf maxLen events
            :: serveConnections table nf maxLen conns)
    ∧ EXIT_NOTFOUND_NOT_FOUND ≠ EXIT_OK
    ∧ EXIT_NOTFOUND_NOT_FOUND ≠ EXIT_NON_GET_REQUEST
    ∧ EXIT_NOTFOUND_NOT_FOUND ≠ EXIT_WEIRD_REQUEST_PATH
    ∧ EXIT_NOTFOUND_NOT_FOUND ≠ EXIT_SOCKET_READ_FAILED
    ∧ EXIT_NOTFOUND_NOT_FOUND ≠ EXIT_SOCKET_WEIRD_RX_LENGTH := by
  refine ⟨?_, fun conns => rfl, by decide, by decide, by decide, by decide, by decide⟩
  simp [child_handle_client, hrd, hget, htok, hslash, hmiss, hnf, fallback404]

/-- Witness for C7: an empty route table, the default not-found route
`/404.html`, and the request `GET /missing `. -/
theorem C7_notfound_notfound_witness :
    child_handle_client [] (str "/404.html") 8 [.chunk (str "GET /missing ")]
      = (str "HTTP/1.1 404 NOT FOUND\r\nContent-Length: 13\r\n\r\n404 NOT FOUND",
         .fatalExit EXIT_NOTFOUND_NOT_FOUND) :=
  (C7_notfound_notfound [] (str "/404.html") 8 [.chunk (str "GET /missing ")]
    (str "GET /missing ") (str "/missing") rfl (by decide) (by decide)
    (by decide) (by decide) (by decide)).1

/-! ## C8 — the bounded receive loop -/

/-- The receive loop never accumulates beyond `maxSize`: each read asks
for at most `maxSize - received` bytes. -/
theorem srLoop_bounded (events : List RxEvent) :
    ∀ (maxSize : Nat) (acc res : Bytes), acc.length ≤ maxSize →
      srLoop maxSize events acc = .ok res → res.length ≤ maxSize := by
  induction events with
  | nil => intro maxSize acc res hle hok; cases hok; exact hle
  | cons ev rest ih =>
      intro maxSize acc res hle hok
      cases ev with
      | rerror => exact absurd hok (by simp [srLoop])
      | closed => simp only [srLoop] at hok; cases hok; exact hle
      | chunk b =>
          simp only [srLoop] at hok
          have hlen : (acc ++ b.take (maxSize - acc.length)).length ≤ maxSize := by
            have := List.length_take_le (maxSize - acc.length) b
            simp only [List.length_append]
            omega
          by_cases hc : (acc ++ b.take (maxSize - acc.length)).length < maxSize
          · rw [if_pos hc] at hok
            exact ih maxSize _ res hlen hok
          · rw [if_neg hc] at hok; cases hok; exact hlen

/-- C8: the receive loop gathers bytes until `maxSize` are collected or
the peer closes, never holding more than `maxSize`; a successful
`socket_read` yields a length inside `[minSize, maxSize]`; a loop total
below the minimum is rejected with the weird-length error
`EXIT_SOCKET_WEIRD_RX_LENGTH`, a code distinct from the hard read error
`EXIT_SOCKET_READ_FAILED`; and `child_handle_client` performs its read
with minimum 5 and maximum `max_path_len + 5` ('GET ' plus path plus a
delimiter), turning either error into that worker's fatal exit. -/
theorem C8_bounded_read :
    (∀ (events : List RxEvent) (maxSize : Nat) (res : Bytes),
        srLoop maxSize events [] = .ok res → res.length ≤ maxSize)
    ∧ (∀ (events : List RxEvent) (minSize maxSize : Nat) (buf : Bytes),
        socket_read events minSize maxSize = .ok buf →
          minSize ≤ buf.length ∧ buf.length ≤ maxSize)
    ∧ (∀ (events : List RxEvent) (minSize maxSize : Nat) (acc : Bytes),
        srLoop maxSize events [] = .ok acc → acc.length < minSize →
          socket_read events minSize maxSize = .error EXIT_SOCKET_WEIRD_RX_LENGTH)
    ∧ EXIT_SOCKET_WEIRD_RX_LENGTH ≠ EXIT_SOCKET_READ_FAILED
    ∧ (∀ (table : List (Bytes × Bytes)) (nf : Bytes) (maxLen : Nat)
        (events : List RxEvent) (e : Nat),
        socket_read events 5 (maxLen + 5) = .error e →
          child_handle_client table nf maxLen events = ([], .fatalExit e)) := by
  refine ⟨?_, ?_, ?_, by decide, ?_⟩
  · intro events maxSize res hok
    exact srLoop_bounded events maxSize [] res (by simp) hok
  · intro events minSize maxSize buf hok
    simp only [socket_read] at hok
    cases hsr : srLoop maxSize events [] with
    | error e => rw [hsr] at hok; exact absurd hok (by simp)
    | ok acc =>
        rw [hsr] at hok
        have hok2 : (if acc.length < minSize ∨ acc.length > maxSize
            then (.error EXIT_SOCKET_WEIRD_RX_LENGTH : Except Nat Bytes)
            else .ok acc) = .ok buf := hok
        by_cases hc : acc.length < minSize ∨ acc.length > maxSize
        · rw [if_pos hc] at hok2; exact absurd hok2 (by simp)
        · rw [if_neg hc] at hok2
          cases hok2
          omega
  · intro events minSize maxSize acc hok hlt
    simp only [socket_read, hok]
    rw [if_pos (Or.inl hlt)]
  · intro table nf maxLen events e herr
    simp [child_handle_client, herr]

/-- Witness for C8: a peer that closes after three bytes trips the
weird-length error on a five-byte minimum, and the successful-read
bound holds on a concrete read. -/
theorem C8_bounded_read_witness :
    socket_read [.chunk (str "GET"), .closed] 5 10
        = .error EXIT_SOCKET_WEIRD_RX_LENGTH
    ∧ (5 ≤ (str "GET /a ").length ∧ (str "GET /a ").length ≤ 10) :=
  ⟨C8_bounded_read.2.2.1 [.chunk (str "GET"), .closed] 5 10 (str "GET")
      rfl (by decide),
   C8_bounded_read.2.1 [.chunk (str "GET /a "), .closed] 5 10 (str "GET /a ")
      rfl⟩

/-! ## Route computation lemmas -/

/-- Unpacking of `goodName`. -/
theorem goodName_spec (n : Bytes) (h : goodName n = true) :
    n ≠ [] ∧ '/' ∉ n := by
  simp only [goodName, Bool.and_eq_true, Bool.not_eq_true', ne_eq,
    decide_eq_true_eq] at h
  exact ⟨by simpa using h.1, by simpa using h.2⟩

theorem joinComps_append (a b : List Bytes) :
    joinComps (a ++ b) = joinComps a ++ joinComps b := by
  induction a with
  | nil => simp [joinComps]
  | cons c rest ih => simp [joinComps, ih]

theorem joinComps_concat (p : List Bytes) (n : Bytes) :
    joinComps (p ++ [n]) = joinComps p ++ '/' :: n := by
  rw [joinComps_append]
  simp [joinComps]

/-- A joined path is empty or starts with a slash. -/
theorem joinComps_headSlash (a : List Bytes) :
    joinComps a = [] ∨ (joinComps a).head? = some '/' := by
  cases a with
  | nil => exact Or.inl rfl
  | cons c rest => exact Or.inr rfl

theorem joinComps_eq_nil_iff (a : List Bytes) : joinComps a = [] ↔ a = [] := by
  cases a with
  | nil => simp [joinComps]
  | cons c rest => simp [joinComps]

/-- Two slash-free component names followed by empty-or-slash-headed
remainders concatenate injectively. -/
theorem slashfree_cancel (c1 : Bytes) :
    ∀ (c2 r1 r2 : Bytes), '/' ∉ c1 → '/' ∉ c2 →
      (r1 = [] ∨ r1.head? = some '/') → (r2 = [] ∨ r2.head? = some '/') →
      c1 ++ r1 = c2 ++ r2 → c1 = c2 ∧ r1 = r2 := by
  induction c1 with
  | nil =>
      intro c2 r1 r2 _ hc2 hr1 hr2 heq
      cases c2 with
      | nil => exact ⟨rfl, heq⟩
      | cons x xs =>
          exfalso
          simp only [List.nil_append] at heq
          rcases hr1 with h | h
          · subst h
            exact (by simp at heq : False)
          · have hx : r1.head? = some x := by rw [heq]; rfl
            rw [h] at hx
            have : x = '/' := by injection hx with h2; exact h2.symm
            exact hc2 (this ▸ List.mem_cons_self x xs)
  | cons a as ih =>
      intro c2 r1 r2 hc1 hc2 hr1 hr2 heq
      cases c2 with
      | nil =>
          exfalso
          simp only [List.nil_append] at heq
          rcases hr2 with h | h
          · subst h
            exact (by simp at heq : False)
          · have hx : r2.head? = some a := by rw [← heq]; rfl
            rw [h] at hx
            have : a = '/' := by injection hx with h2; exact h2.symm
            exact hc1 (this ▸ List.mem_cons_self a as)
      | cons b bs =>
          simp only [List.cons_append, List.cons.injEq] at heq
          obtain ⟨hab, heq2⟩ := heq
          have h1 : '/' ∉ as := fun hm => hc1 (List.mem_cons_of_mem a hm)
          have h2 : '/' ∉ bs := fun hm => hc2 (List.mem_cons_of_mem b hm)
          obtain ⟨hl, hr⟩ := ih bs r1 r2 h1 h2 hr1 hr2 heq2
          exact ⟨by rw [hab, hl], hr⟩

/-- Injectivity of `joinComps` on lists of good names. -/
theorem joinComps_inj (a : List Bytes) :
    ∀ (b : List Bytes), (∀ c ∈ a, goodName c = true) →
      (∀ c ∈ b, goodName c = true) →
      joinComps a = joinComps b → a = b := by
  induction a with
  | nil =>
      intro b _ _ heq
      simp only [joinComps] at heq
      exact ((joinComps_eq_nil_iff b).mp heq.symm).symm
  | cons c rest ih =>
      intro b hga hgb heq
      cases b with
      | nil =>
          simp [joinComps] at heq
      | cons c2 rest2 =>
          simp only [joinComps, List.cons.injEq, true_and] at heq
          have hc : '/' ∉ c := (goodName_spec c (hga c (by simp))).2
          have hc2 : '/' ∉ c2 := (goodName_spec c2 (hgb c2 (by simp))).2
          obtain ⟨hl, hr⟩ := slashfree_cancel c c2 (joinComps rest)
            (joinComps rest2) hc hc2 (joinComps_headSlash rest)
            (joinComps_headSlash rest2) heq
          have := ih rest2 (fun x hx => hga x (List.mem_cons_of_mem c hx))
            (fun x hx => hgb x (List.mem_cons_of_mem c2 hx)) hr
          rw [hl, this]

/-- A joined non-empty good path has at least two characters. -/
theorem joinComps_length_ge_two (c : Bytes) (rest : List Bytes)
    (hg : goodName c = true) : 2 ≤ (joinComps (c :: rest)).length := by
  obtain ⟨hne, -⟩ := goodName_spec c hg
  have : 1 ≤ c.length := List.length_pos.mpr hne
  simp only [joinComps, List.length_cons, List.length_append]
  omega

theorem index_suffix_length : index_suffix.length = 11 := rfl

/-- Stripping a path that does end with the index suffix. -/
theorem stripIndex_concat (jp : Bytes) :
    stripIndexRoute (jp ++ index_suffix) = if jp = [] then ['/'] else jp := by
  have hlen : (jp ++ index_suffix).length = jp.length + 11 := by
    simp [index_suffix_length]
  have hsub : (jp ++ index_suffix).length - index_suffix.length = jp.length := by
    rw [hlen, index_suffix_length]
    omega
  have hcond : (jp ++ index_suffix).length ≥ index_suffix.length ∧
      (jp ++ index_suffix).drop ((jp ++ index_suffix).length - index_suffix.length)
        = index_suffix := by
    refine ⟨by rw [hlen, index_suffix_length]; omega, ?_⟩
    rw [hsub]
    exact List.drop_left jp index_suffix
  simp only [stripIndexRoute]
  rw [if_pos hcond, hsub, List.take_left]

/-- The canonical route of a file named `index.html`. -/
theorem routeOf_strip (p : List Bytes) :
    routeOfComps (p ++ [str "index.html"]) = if p = [] then ['/'] else joinComps p := by
  have hj : joinComps (p ++ [str "index.html"]) = joinComps p ++ index_suffix := by
    rw [joinComps_concat]; rfl
  rw [routeOfComps, hj, stripIndex_concat]
  simp [joinComps_eq_nil_iff]

theorem suffix_cons_elim {s : Bytes} {x : Char} {xs : Bytes} (h : s <:+ x :: xs) :
    s = x :: xs ∨ s <:+ xs := by
  obtain ⟨t, ht⟩ := h
  cases t with
  | nil => exact Or.inl (by simpa using ht)
  | cons a as =>
      right
      refine ⟨as, ?_⟩
      simpa using congrArg List.tail ht

/-- A good path whose last component is not `index.html` is left
untouched by the index normalization. -/
theorem stripIndex_no_strip (p : List Bytes) (c : Bytes)
    (hg : goodName c = true) (hne : c ≠ str "index.html") :
    stripIndexRoute (joinComps (p ++ [c])) = joinComps (p ++ [c]) := by
  set J := joinComps (p ++ [c]) with hJ
  by_cases hcond : J.length ≥ index_suffix.length ∧
      J.drop (J.length - index_suffix.length) = index_suffix
  · exfalso
    have hsfx1 : index_suffix <:+ J := by
      rw [← hcond.2]
      exact List.drop_suffix _ J
    have hsfx2 : ('/' :: c) <:+ J := by
      rw [hJ, joinComps_concat]
      exact ⟨joinComps p, rfl⟩
    have hmemix : '/' ∉ str "index.html" := by decide
    have hmemc : '/' ∉ c := (goodName_spec c hg).2
    rcases List.suffix_or_suffix_of_suffix hsfx1 hsfx2 with h | h
    · -- index_suffix <:+ '/' :: c
      rcases suffix_cons_elim h with h | h
      · -- index_suffix = '/' :: c, i.e. c = "index.html"
        have : str "index.html" = c := by
          have := congrArg List.tail h
          simpa [index_suffix, str] using this
        exact hne this.symm
      · -- index_suffix <:+ c, so '/' ∈ c
        exact hmemc (h.subset (by decide))
    · -- '/' :: c <:+ index_suffix = '/' :: "index.html"
      rcases suffix_cons_elim h with h | h
      · have : c = str "index.html" := by
          have := congrArg List.tail h
          simpa [index_suffix, str] using this
        exact hne this
      · -- '/' :: c <:+ "index.html", so '/' ∈ "index.html"
        exact hmemix (h.subset (List.mem_cons_self '/' c))
  · simp only [stripIndexRoute]
    rw [if_neg hcond]

/-- Same statement through `getLast?`, the form the injectivity proof
uses. -/
theorem routeOf_no_strip (comps : List Bytes)
    (hg : ∀ c ∈ comps, goodName c = true)
    (hlast : comps.getLast? ≠ some (str "index.html")) :
    routeOfComps comps = joinComps comps := by
  cases hc : comps.getLast? with
  | none =>
      have : comps = [] := List.getLast?_eq_none_iff.mp hc
      subst this
      rfl
  | some c =>
      have hdecomp : comps.dropLast ++ [c] = comps :=
        List.dropLast_append_getLast? c hc
      have hcmem : c ∈ comps := by
        rw [← hdecomp]; exact List.mem_append_right _ (List.mem_singleton_self c)
      have hcgood : goodName c = true := hg c hcmem
      have hcne : c ≠ str "index.html" := by
        intro h; exact hlast (by rw [hc, h])
      rw [routeOfComps, ← hdecomp]
      exact stripIndex_no_strip comps.dropLast c hcgood hcne

theorem goodName_dropLast {X : List Bytes}
    (hg : ∀ c ∈ X, goodName c = true) : ∀ c ∈ X.dropLast, goodName c = true :=
  fun c hc => hg c (List.dropLast_subset X hc)

theorem joinComps_preCons_length (pre : List Bytes) (m : Bytes) (cs' : List Bytes)
    (hg : ∀ c ∈ pre ++ m :: cs', goodName c = true) :
    2 ≤ (joinComps (pre ++ m :: cs')).length := by
  cases pre with
  | nil => exact joinComps_length_ge_two m cs' (hg m (by simp))
  | cons p0 ps =>
      simp only [List.cons_append]
      exact joinComps_length_ge_two p0 _ (hg p0 (by simp))

theorem eq_single_elim (pre : List Bytes) (n : Bytes) (cs : List Bytes) (x : Bytes)
    (h : pre ++ n :: cs = [x]) : pre = [] ∧ n = x ∧ cs = [] := by
  cases pre with
  | nil => simpa using h
  | cons p0 ps =>
      simp only [List.cons_append, List.cons.injEq] at h
      exact absurd h.2 (by simp)

/-- Two file paths that first differ at some component have different
canonical routes: the decisive injectivity property behind exact route
lookup.  (`index.html` stripping can identify a path only with the path
of its parent directory, never with a sibling subtree's path.) -/
theorem routeOf_inj_heads (pre : List Bytes) (n m : Bytes) (cs cs' : List Bytes)
    (hgA : ∀ c ∈ pre ++ n :: cs, goodName c = true)
    (hgB : ∀ c ∈ pre ++ m :: cs', goodName c = true)
    (hnm : n ≠ m) :
    routeOfComps (pre ++ n :: cs) ≠ routeOfComps (pre ++ m :: cs') := by
  intro heq
  set A := pre ++ n :: cs with hA_def
  set B := pre ++ m :: cs' with hB_def
  have hcancel : A = B → False := by
    intro h
    rw [hA_def, hB_def] at h
    have := List.append_cancel_left h
    exact hnm (List.cons.injEq _ _ _ _ |>.mp this).1
  by_cases hA : A.getLast? = some (str "index.html") <;>
    by_cases hB : B.getLast? = some (str "index.html")
  · -- both paths end in index.html: their parents coincide
    have hAdec : A.dropLast ++ [str "index.html"] = A :=
      List.dropLast_append_getLast? _ hA
    have hBdec : B.dropLast ++ [str "index.html"] = B :=
      List.dropLast_append_getLast? _ hB
    rw [← hAdec, ← hBdec, routeOf_strip, routeOf_strip] at heq
    by_cases hdA : A.dropLast = [] <;> by_cases hdB : B.dropLast = []
    · rw [if_pos hdA, if_pos hdB] at heq
      have hA1 : A = [str "index.html"] := by rw [← hAdec, hdA]; rfl
      have hB1 : B = [str "index.html"] := by rw [← hBdec, hdB]; rfl
      exact hcancel (hA1.trans hB1.symm)
    · rw [if_pos hdA, if_neg hdB] at heq
      have h2 : 2 ≤ (joinComps B.dropLast).length := by
        cases hdb : B.dropLast with
        | nil => exact absurd hdb hdB
        | cons c0 t0 =>
            refine joinComps_length_ge_two c0 t0 ?_
            refine goodName_dropLast hgB c0 ?_
            rw [hdb]; simp
      rw [← heq] at h2
      simp at h2
    · rw [if_neg hdA, if_pos hdB] at heq
      have h2 : 2 ≤ (joinComps A.dropLast).length := by
        cases hda : A.dropLast with
        | nil => exact absurd hda hdA
        | cons c0 t0 =>
            refine joinComps_length_ge_two c0 t0 ?_
            refine goodName_dropLast hgA c0 ?_
            rw [hda]; simp
      rw [heq] at h2
      simp at h2
    · rw [if_neg hdA, if_neg hdB] at heq
      have : A.dropLast = B.dropLast :=
        joinComps_inj A.dropLast B.dropLast (goodName_dropLast hgA)
          (goodName_dropLast hgB) heq
      exact hcancel (by rw [← hAdec, ← hBdec, this])
  · -- A ends in index.html, B does not
    have hAdec : A.dropLast ++ [str "index.html"] = A :=
      List.dropLast_append_getLast? _ hA
    rw [← hAdec, routeOf_strip, routeOf_no_strip B hgB hB] at heq
    by_cases hdA : A.dropLast = []
    · rw [if_pos hdA] at heq
      have h2 : 2 ≤ (joinComps B).length := joinComps_preCons_length pre m cs' hgB
      rw [← heq] at h2
      simp at h2
    · rw [if_neg hdA] at heq
      have hdAB : A.dropLast = B :=
        joinComps_inj A.dropLast B (goodName_dropLast hgA) hgB heq
      -- so A = B ++ [index.html], i.e. n :: cs = m :: (cs' ++ [index.html])
      have : pre ++ n :: cs = pre ++ m :: (cs' ++ [str "index.html"]) := by
        rw [hA_def] at hAdec
        rw [← hAdec, hdAB, hB_def]
        simp
      have := List.append_cancel_left this
      exact hnm (List.cons.injEq _ _ _ _ |>.mp this).1
  · -- B ends in index.html, A does not
    have hBdec : B.dropLast ++ [str "index.html"] = B :=
      List.dropLast_append_getLast? _ hB
    rw [← hBdec, routeOf_strip, routeOf_no_strip A hgA hA] at heq
    by_cases hdB : B.dropLast = []
    · rw [if_pos hdB] at heq
      have h2 : 2 ≤ (joinComps A).length := joinComps_preCons_length pre n cs hgA
      rw [heq] at h2
      simp at h2
    · rw [if_neg hdB] at heq
      have hdBA : B.dropLast = A :=
        joinComps_inj B.dropLast A (goodName_dropLast hgB) hgA heq.symm
      have : pre ++ m :: cs' = pre ++ n :: (cs ++ [str "index.html"]) := by
        rw [hB_def] at hBdec
        rw [← hBdec, hdBA, hA_def]
        simp
      have := List.append_cancel_left this
      exact hnm ((List.cons.injEq _ _ _ _ |>.mp this).1).symm
  · -- neither strips
    rw [routeOf_no_strip A hgA hA, routeOf_no_strip B hgB hB] at heq
    exact hcancel (joinComps_inj A B hgA hgB heq)

/-! ## hsearch table lemmas -/

theorem hsearchFind_append_left (t : List (Bytes × Bytes)) (t2 : List (Bytes × Bytes))
    (k : Bytes) (v : Bytes) (h : hsearchFind t k = some v) :
    hsearchFind (t ++ t2) k = some v := by
  induction t with
  | nil => simp [hsearchFind] at h
  | cons p rest ih =>
      obtain ⟨pk, pv⟩ := p
      simp only [hsearchFind] at h ⊢
      by_cases hk : pk = k
      · rw [if_pos hk] at h ⊢; exact h
      · rw [if_neg hk] at h ⊢; exact ih h

theorem hsearchFind_append_right (t : List (Bytes × Bytes)) (key v k : Bytes)
    (h : hsearchFind t k = none) :
    hsearchFind (t ++ [(key, v)]) k = if key = k then some v else none := by
  induction t with
  | nil => simp [hsearchFind]
  | cons p rest ih =>
      obtain ⟨pk, pv⟩ := p
      simp only [hsearchFind] at h ⊢
      by_cases hk : pk = k
      · rw [if_pos hk] at h; exact absurd h (by simp)
      · rw [if_neg hk] at h ⊢; exact ih h

theorem hsearchEnter_preserve (t : List (Bytes × Bytes)) (key val k v : Bytes)
    (h : hsearchFind t k = some v) :
    hsearchFind (hsearchEnter t key val) k = some v := by
  simp only [hsearchEnter]
  cases hsearchFind t key with
  | some w => exact h
  | none => exact hsearchFind_append_left t [(key, val)] k v h

theorem hsearchEnter_new (t : List (Bytes × Bytes)) (key val : Bytes)
    (h : hsearchFind t key = none) :
    hsearchFind (hsearchEnter t key val) key = some val := by
  simp only [hsearchEnter, h]
  rw [hsearchFind_append_right t key val key h, if_pos rfl]

theorem hsearchEnter_key_of_new (t : List (Bytes × Bytes)) (key val k : Bytes)
    (hnone : hsearchFind t k = none)
    (hsome : (hsearchFind (hsearchEnter t key val) k).isSome) : k = key := by
  simp only [hsearchEnter] at hsome
  cases hf : hsearchFind t key with
  | some w => rw [hf] at hsome; rw [hnone] at hsome; simp at hsome
  | none =>
      rw [hf] at hsome
      rw [hsearchFind_append_right t key val k hnone] at hsome
      by_cases hk : key = k
      · exact hk.symm
      · rw [if_neg hk] at hsome; simp at hsome

/-! ## FTS path bookkeeping -/

theorem stripTrail_eq_self (s : Bytes) (h : s.getLast? ≠ some '/') :
    stripTrail s = s := by
  simp only [stripTrail]
  rw [if_neg h]

/-- A child of a slash-normalized FTS path extends the root-relative
joined path by one component, and is itself slash-normalized when the
component is a good name. -/
theorem childPath_step (rootB fp name : Bytes) (pre : List Bytes)
    (hfp : fp = rootB ++ joinComps pre) (hst : stripTrail fp = fp)
    (hg : goodName name = true) :
    childPath fp name = rootB ++ joinComps (pre ++ [name])
    ∧ stripTrail (childPath fp name) = childPath fp name := by
  obtain ⟨hne, hns⟩ := goodName_spec name hg
  have hcp : childPath fp name = fp ++ '/' :: name := by
    rw [childPath, hst]
  constructor
  · rw [hcp, hfp, joinComps_concat, List.append_assoc]
  · rw [hcp]
    refine stripTrail_eq_self _ ?_
    rw [List.getLast?_append_of_ne_nil fp (by simp)]
    have : ('/' :: name).getLast? = name.getLast? := by
      have : '/' :: name = ['/'] ++ name := rfl
      rw [this, List.getLast?_append_of_ne_nil ['/'] hne]
    rw [this]
    intro hl
    have hdec : name.dropLast ++ ['/'] = name :=
      List.dropLast_append_getLast? _ hl
    exact hns (by rw [← hdec]; exact List.mem_append_right _ (by simp))

/-! ## Scan preservation lemmas -/

mutual
/-- Whatever the scan of one entry does, already-registered routes keep
their blobs and the longest-route bound never shrinks. -/
theorem scanEntry_preserve (base : Nat) (fp name : Bytes) (node : FNode)
    (st st' : ScanState) (hok : scanEntry base fp name node st = .ok st') :
    (∀ k v, hsearchFind st.table k = some v → hsearchFind st'.table k = some v)
    ∧ st.maxLen ≤ st'.maxLen := by
  cases node with
  | file stat content =>
      by_cases hdot : dotName name = true
      · simp only [scanEntry, hdot, if_true] at hok
        cases hok
        exact ⟨fun k v h => h, le_refl _⟩
      · simp only [scanEntry, hdot, if_false] at hok
        by_cases hlt : content.length < stat
        · rw [if_pos hlt] at hok; exact absurd hok (by simp)
        · rw [if_neg hlt] at hok
          cases hok
          exact ⟨fun k v h => hsearchEnter_preserve _ _ _ k v h,
            le_max_left _ _⟩
  | dir es =>
      by_cases hdot : dotName name = true
      · simp only [scanEntry, hdot, if_true] at hok
        cases hok
        exact ⟨fun k v h => h, le_refl _⟩
      · simp only [scanEntry, hdot, if_false] at hok
        exact scanL_preserve base fp es st st' hok
  | symlinkTo t => exact absurd hok (by simp [scanEntry])
  | symlinkDangling => exact absurd hok (by simp [scanEntry])
  | special => exact absurd hok (by simp [scanEntry])

theorem scanL_preserve (base : Nat) (fp : Bytes) (es : EntryList)
    (st st' : ScanState) (hok : scanL base fp es st = .ok st') :
    (∀ k v, hsearchFind st.table k = some v → hsearchFind st'.table k = some v)
    ∧ st.maxLen ≤ st'.maxLen := by
  cases es with
  | nil =>
      simp only [scanL] at hok
      cases hok
      exact ⟨fun k v h => h, le_refl _⟩
  | cons name node rest =>
      simp only [scanL] at hok
      cases hse : scanEntry base (childPath fp name) name node st with
      | error e => rw [hse] at hok; exact absurd hok (by simp)
      | ok st2 =>
          rw [hse] at hok
          obtain ⟨hp1, hm1⟩ :=
            scanEntry_preserve base (childPath fp name) name node st st2 hse
          obtain ⟨hp2, hm2⟩ := scanL_preserve base fp rest st2 st' hok
          exact ⟨fun k v h => hp2 k v (hp1 k v h), le_trans hm1 hm2⟩
end

/-! ## Well-formedness bookkeeping -/

mutual
theorem rawPathsN_good (node : FNode) (hwf : wfN node = true) :
    ∀ p ∈ rawPathsN node, ∀ c ∈ p, goodName c = true := by
  cases node with
  | file stat content =>
      intro p hp c hc
      simp only [rawPathsN, List.mem_singleton] at hp
      subst hp
      simp at hc
  | dir es =>
      intro p hp c hc
      exact rawPathsL_good es (by simpa [wfN] using hwf) p hp c hc
  | symlinkTo t => intro p hp; simp [rawPathsN] at hp
  | symlinkDangling => intro p hp; simp [rawPathsN] at hp
  | special => intro p hp; simp [rawPathsN] at hp

theorem rawPathsL_good (es : EntryList) (hwf : wfL es = true) :
    ∀ p ∈ rawPathsL es, ∀ c ∈ p, goodName c = true := by
  cases es with
  | nil => intro p hp; simp [rawPathsL] at hp
  | cons name node rest =>
      simp only [wfL, Bool.and_eq_true] at hwf
      intro p hp c hc
      simp only [rawPathsL, List.mem_append, List.mem_map] at hp
      rcases hp with ⟨q, hq, rfl⟩ | hp
      · rcases List.mem_cons.mp hc with rfl | hc
        · exact hwf.1.1
        · exact rawPathsN_good node hwf.1.2 q hq c hc
      · exact rawPathsL_good rest hwf.2 p hp c hc
end

mutual
theorem fileAtN_good (node : FNode) (comps : List Bytes) (stat : Nat)
    (content : Bytes) (hwf : wfN node = true)
    (h : fileAtN node comps = some (stat, content)) :
    ∀ c ∈ comps, goodName c = true := by
  cases node with
  | file s0 c0 =>
      cases comps with
      | nil => intro c hc; simp at hc
      | cons n cs => simp [fileAtN] at h
  | dir es =>
      cases comps with
      | nil => simp [fileAtN] at h
      | cons n cs =>
          exact fileAtL_good es (n :: cs) stat content
            (by simpa [wfN] using hwf) (by simpa [fileAtN] using h)
  | symlinkTo t => simp [fileAtN] at h
  | symlinkDangling => simp [fileAtN] at h
  | special => simp [fileAtN] at h

theorem fileAtL_good (es : EntryList) (comps : List Bytes) (stat : Nat)
    (content : Bytes) (hwf : wfL es = true)
    (h : fileAtL es comps = some (stat, content)) :
    ∀ c ∈ comps, goodName c = true := by
  cases es with
  | nil => simp [fileAtL] at h
  | cons name node rest =>
      simp only [wfL, Bool.and_eq_true] at hwf
      cases comps with
      | nil => simp [fileAtL] at h
      | cons n cs =>
          simp only [fileAtL] at h
          by_cases hn : name = n
          · rw [if_pos hn] at h
            intro c hc
            rcases List.mem_cons.mp hc with rfl | hc
            · exact hn ▸ hwf.1.1
            · exact fileAtN_good node cs stat content hwf.1.2 h c hc
          · rw [if_neg hn] at h
            exact fileAtL_good rest (n :: cs) stat content hwf.2 h
end

theorem fileAtL_ne_nil (es : EntryList) (x : Nat × Bytes)
    (h : fileAtL es [] = some x) : False := by
  cases es <;> simp [fileAtL] at h

/-! ## Provenance: where new table keys come from -/

theorem append_cons_assoc (pre : List Bytes) (name : Bytes) (x : List Bytes) :
    (pre ++ [name]) ++ x = pre ++ name :: x := by simp

mutual
/-- Every key that the processing of one directory entry adds to the
table is the canonical route of some regular file inside that entry. -/
theorem scanEntry_keys (rootB : Bytes) (pre : List Bytes) (base : Nat)
    (fpc name : Bytes) (node : FNode) (st st' : ScanState)
    (hwf : wfN node = true) (hg : goodName name = true)
    (hfpc : fpc = rootB ++ joinComps (pre ++ [name]))
    (hbase : base = rootB.length)
    (hstc : stripTrail fpc = fpc)
    (hok : scanEntry base fpc name node st = .ok st') :
    ∀ k, hsearchFind st.table k = none → (hsearchFind st'.table k).isSome →
      ∃ comps, comps ∈ rawPathsN node ∧ k = routeOfComps (pre ++ name :: comps) := by
  cases node with
  | file stat content =>
      intro k hknone hksome
      by_cases hdot : dotName name = true
      · simp only [scanEntry, hdot, if_true] at hok
        cases hok
        rw [hknone] at hksome
        simp at hksome
      · simp only [scanEntry, hdot, if_false] at hok
        by_cases hlt : content.length < stat
        · rw [if_pos hlt] at hok; exact absurd hok (by simp)
        · rw [if_neg hlt] at hok
          cases hok
          have hroute : stripIndexRoute (fpc.drop base)
              = routeOfComps (pre ++ [name]) := by
            rw [hfpc, hbase, List.drop_left, routeOfComps]
          rw [hroute] at hksome
          have := hsearchEnter_key_of_new st.table
            (routeOfComps (pre ++ [name])) (content.take stat) k hknone hksome
          exact ⟨[], by simp [rawPathsN], this⟩
  | dir es =>
      intro k hknone hksome
      by_cases hdot : dotName name = true
      · simp only [scanEntry, hdot, if_true] at hok
        cases hok
        rw [hknone] at hksome
        simp at hksome
      · simp only [scanEntry, hdot, if_false] at hok
        obtain ⟨comps, hmem, hk⟩ := scanL_keys rootB (pre ++ [name]) base fpc es
          st st' (by simpa [wfN] using hwf) hfpc hbase hstc hok k hknone hksome
        refine ⟨comps, by simpa [rawPathsN] using hmem, ?_⟩
        rw [hk, append_cons_assoc]
  | symlinkTo t => exact absurd hok (by simp [scanEntry])
  | symlinkDangling => exact absurd hok (by simp [scanEntry])
  | special => exact absurd hok (by simp [scanEntry])

theorem scanL_keys (rootB : Bytes) (pre : List Bytes) (base : Nat)
    (fp : Bytes) (es : EntryList) (st st' : ScanState)
    (hwf : wfL es = true)
    (hfp : fp = rootB ++ joinComps pre)
    (hbase : base = rootB.length)
    (hst : stripTrail fp = fp)
    (hok : scanL base fp es st = .ok st') :
    ∀ k, hsearchFind st.table k = none → (hsearchFind st'.table k).isSome →
      ∃ comps, comps ∈ rawPathsL es ∧ k = routeOfComps (pre ++ comps) := by
  cases es with
  | nil =>
      intro k hknone hksome
      simp only [scanL] at hok
      cases hok
      rw [hknone] at hksome
      simp at hksome
  | cons name node rest =>
      intro k hknone hksome
      simp only [wfL, Bool.and_eq_true] at hwf
      simp only [scanL] at hok
      cases hse : scanEntry base (childPath fp name) name node st with
      | error e => rw [hse] at hok; exact absurd hok (by simp)
      | ok st2 =>
          rw [hse] at hok
          obtain ⟨hfpc, hstc⟩ := childPath_step rootB fp name pre hfp hst hwf.1.1
          by_cases hmid : hsearchFind st2.table k = none
          · obtain ⟨comps, hmem, hk⟩ := scanL_keys rootB pre base fp rest st2 st'
              hwf.2 hfp hbase hst hok k hmid hksome
            exact ⟨comps, by simp [rawPathsL, hmem], hk⟩
          · have hsome2 : (hsearchFind st2.table k).isSome :=
              Option.ne_none_iff_isSome.mp hmid
            obtain ⟨comps, hmem, hk⟩ := scanEntry_keys rootB pre base
              (childPath fp name) name node st st2 hwf.1.2 hwf.1.1 hfpc hbase
              hstc hse k hknone hsome2
            have hmem2 : name :: comps ∈ rawPathsL (.cons name node rest) := by
              simp only [rawPathsL, List.mem_append, List.mem_map]
              exact Or.inl ⟨comps, hmem, rfl⟩
            exact ⟨name :: comps, hmem2, hk⟩
end

/-! ## The main scan correctness lemma -/

mutual
/-- Processing a directory entry registers each of its non-dot regular
files at its canonical route with exactly the bytes read (the first
`stat` bytes of the readable content), and records the route's length
in the longest-route bound. -/
theorem scanEntry_serves (rootB : Bytes) (pre : List Bytes) (base : Nat)
    (fpc name : Bytes) (node : FNode) (st st' : ScanState)
    (stat : Nat) (content : Bytes) (comps : List Bytes)
    (hwf : wfN node = true) (hg : goodName name = true)
    (hnd : dotName name = false)
    (hpre : ∀ c ∈ pre, goodName c = true)
    (hfpc : fpc = rootB ++ joinComps (pre ++ [name]))
    (hbase : base = rootB.length)
    (hstc : stripTrail fpc = fpc)
    (hfile : fileAtN node comps = some (stat, content))
    (hnodot : ∀ c ∈ comps, dotName c = false)
    (hfresh : hsearchFind st.table (routeOfComps (pre ++ name :: comps)) = none)
    (hok : scanEntry base fpc name node st = .ok st') :
    stat ≤ content.length
    ∧ hsearchFind st'.table (routeOfComps (pre ++ name :: comps))
        = some (content.take stat)
    ∧ (routeOfComps (pre ++ name :: comps)).length ≤ st'.maxLen := by
  cases node with
  | file stat0 content0 =>
      cases comps with
      | cons n cs => simp [fileAtN] at hfile
      | nil =>
          obtain ⟨h1, h2⟩ : stat0 = stat ∧ content0 = content := by
            simpa [fileAtN] using hfile
          simp only [scanEntry, hnd, if_false] at hok
          by_cases hlt : content0.length < stat0
          · rw [if_pos hlt] at hok; exact absurd hok (by simp)
          · rw [if_neg hlt] at hok
            cases hok
            have hroute : stripIndexRoute (fpc.drop base)
                = routeOfComps (pre ++ [name]) := by
              rw [hfpc, hbase, List.drop_left, routeOfComps]
            refine ⟨?_, ?_, ?_⟩
            · rw [← h1, ← h2]; exact Nat.le_of_not_lt hlt
            · show hsearchFind (hsearchEnter st.table
                  (stripIndexRoute (fpc.drop base)) (content0.take stat0)) _ = _
              rw [hroute, h1, h2]
              exact hsearchEnter_new st.table _ _ hfresh
            · show _ ≤ max st.maxLen (stripIndexRoute (fpc.drop base)).length
              rw [hroute]
              exact le_max_right _ _
  | dir es =>
      cases comps with
      | nil => simp [fileAtN] at hfile
      | cons n cs =>
          simp only [scanEntry, hnd, if_false] at hok
          have hfile2 : fileAtL es (n :: cs) = some (stat, content) := by
            simpa [fileAtN] using hfile
          have hpre2 : ∀ c ∈ pre ++ [name], goodName c = true := by
            intro c hc
            rcases List.mem_append.mp hc with hc | hc
            · exact hpre c hc
            · rcases List.mem_singleton.mp hc with rfl
              exact hg
          have hfresh2 : hsearchFind st.table
              (routeOfComps ((pre ++ [name]) ++ n :: cs)) = none := by
            rw [append_cons_assoc]; exact hfresh
          have hres := scanL_serves rootB (pre ++ [name]) base fpc es st st'
            stat content (n :: cs) (by simpa [wfN] using hwf) hpre2 hfpc hbase
            hstc hfile2 hnodot hfresh2 hok
          rw [append_cons_assoc] at hres
          exact hres
  | symlinkTo t => exact absurd hok (by simp [scanEntry])
  | symlinkDangling => exact absurd hok (by simp [scanEntry])
  | special => exact absurd hok (by simp [scanEntry])

/-- Scanning a directory's entries registers each non-dot regular file
reachable through name lookup at its canonical route, provided that
route is not already taken when the walk starts. -/
theorem scanL_serves (rootB : Bytes) (pre : List Bytes) (base : Nat)
    (fp : Bytes) (es : EntryList) (st st' : ScanState)
    (stat : Nat) (content : Bytes) (comps : List Bytes)
    (hwf : wfL es = true)
    (hpre : ∀ c ∈ pre, goodName c = true)
    (hfp : fp = rootB ++ joinComps pre)
    (hbase : base = rootB.length)
    (hst : stripTrail fp = fp)
    (hfile : fileAtL es comps = some (stat, content))
    (hnodot : ∀ c ∈ comps, dotName c = false)
    (hfresh : hsearchFind st.table (routeOfComps (pre ++ comps)) = none)
    (hok : scanL base fp es st = .ok st') :
    stat ≤ content.length
    ∧ hsearchFind st'.table (routeOfComps (pre ++ comps))
        = some (content.take stat)
    ∧ (routeOfComps (pre ++ comps)).length ≤ st'.maxLen := by
  cases es with
  | nil => exact absurd hfile (by simp [fileAtL])
  | cons name node rest =>
      cases comps with
      | nil => exact absurd hfile (fun h => fileAtL_ne_nil _ _ h)
      | cons n cs =>
          simp only [wfL, Bool.and_eq_true] at hwf
          simp only [scanL] at hok
          cases hse : scanEntry base (childPath fp name) name node st with
          | error e => rw [hse] at hok; exact absurd hok (by simp)
          | ok st2 =>
              rw [hse] at hok
              obtain ⟨hfpc, hstc⟩ := childPath_step rootB fp name pre hfp hst hwf.1.1
              simp only [fileAtL] at hfile
              by_cases hn : name = n
              · rw [if_pos hn] at hfile
                subst hn
                have hnd : dotName name = false := hnodot name (by simp)
                obtain ⟨h1, h2, h3⟩ := scanEntry_serves rootB pre base
                  (childPath fp name) name node st st2 stat content cs
                  hwf.1.2 hwf.1.1 hnd hpre hfpc hbase hstc hfile
                  (fun c hc => hnodot c (List.mem_cons_of_mem name hc))
                  hfresh hse
                obtain ⟨hp, hm⟩ := scanL_preserve base fp rest st2 st' hok
                exact ⟨h1, hp _ _ h2, le_trans h3 hm⟩
              · rw [if_neg hn] at hfile
                -- the target file is in a later sibling; show its route
                -- cannot have been claimed by this subtree
                have hfresh2 : hsearchFind st2.table
                    (routeOfComps (pre ++ n :: cs)) = none := by
                  by_contra hne
                  have hsome2 : (hsearchFind st2.table
                      (routeOfComps (pre ++ n :: cs))).isSome :=
                    Option.ne_none_iff_isSome.mp hne
                  obtain ⟨cs', hmem, hkeq⟩ := scanEntry_keys rootB pre base
                    (childPath fp name) name node st st2 hwf.1.2 hwf.1.1 hfpc
                    hbase hstc hse _ hfresh hsome2
                  have hcompsGood : ∀ c ∈ n :: cs, goodName c = true :=
                    fileAtL_good rest (n :: cs) stat content hwf.2 hfile
                  have hgA : ∀ c ∈ pre ++ n :: cs, goodName c = true := by
                    intro c hc
                    rcases List.mem_append.mp hc with hc | hc
                    · exact hpre c hc
                    · exact hcompsGood c hc
                  have hgB : ∀ c ∈ pre ++ name :: cs', goodName c = true := by
                    intro c hc
                    rcases List.mem_append.mp hc with hc | hc
                    · exact hpre c hc
                    · rcases List.mem_cons.mp hc with rfl | hc
                      · exact hwf.1.1
                      · exact rawPathsN_good node hwf.1.2 cs' hmem c hc
                  exact routeOf_inj_heads pre n name cs cs' hgA hgB
                    (fun h => hn (h.symm)) hkeq
                exact scanL_serves rootB pre base fp rest st2 st' stat content
                  (n :: cs) hwf.2 hpre hfp hbase hst hfile hnodot hfresh2 hok
end

/-! ## Request handling lemmas -/

theorem takeWhile_append_stop (p : Char → Bool) (a : Bytes) (b : Char) (t : Bytes)
    (ha : ∀ x ∈ a, p x = true) (hb : p b = false) :
    (a ++ b :: t).takeWhile p = a := by
  induction a with
  | nil => simp [List.takeWhile_cons, hb]
  | cons x xs ih =>
      have hx : p x = true := ha x (by simp)
      simp only [List.cons_append, List.takeWhile_cons, hx, if_true]
      rw [ih (fun y hy => ha y (by simp [hy]))]

/-- A one-chunk peer delivering a request within bounds is read back
exactly. -/
theorem socket_read_exact (req : Bytes) (minS maxS : Nat)
    (hmin : minS ≤ req.length) (hmax : req.length ≤ maxS) :
    socket_read [.chunk req] minS maxS = .ok req := by
  have hloop : srLoop maxS [.chunk req] [] = .ok req := by
    simp only [srLoop, List.nil_append, List.length_nil, Nat.sub_zero,
      List.take_of_length_le hmax, ite_self]
  simp only [socket_read, hloop]
  rw [if_neg (by omega)]

theorem routeChar_spec (c : Char) (h : routeChar c = true) :
    isDelim c = false ∧ c ≠ '\x00' := by
  simp only [routeChar, Bool.and_eq_true, Bool.not_eq_true'] at h
  exact ⟨h.1, by simpa using h.2⟩

theorem isDelim_ne_nul (d : Char) (h : isDelim d = true) : d ≠ '\x00' := by
  intro hne
  subst hne
  exact absurd h (by decide)

/-- The handler on a well-formed `GET` of a registered route: the
request is read fully, the route token is isolated, the table lookup
hits and the `200 OK` response carries exactly the blob with its length
in the `Content-Length` header. -/
theorem handler_route_hit (table : List (Bytes × Bytes)) (nf : Bytes)
    (maxLen : Nat) (route blob : Bytes) (d : Char)
    (hfind : hsearchFind table route = some blob)
    (hlen : route.length ≤ maxLen)
    (hhead : route.head? = some '/')
    (hclean : ∀ ch ∈ route, routeChar ch = true)
    (hd : isDelim d = true) :
    child_handle_client table nf maxLen [.chunk (str "GET " ++ route ++ [d])]
      = (responseHeader (str "200 OK") blob.length ++ blob, .ok) := by
  set req := str "GET " ++ route ++ [d] with hreq
  have hg4 : (str "GET ").length = 4 := rfl
  have hrlen : req.length = route.length + 5 := by
    rw [hreq]
    simp [List.length_append, hg4]
    omega
  have hsr : socket_read [.chunk req] 5 (maxLen + 5) = .ok req :=
    socket_read_exact req 5 (maxLen + 5) (by omega) (by omega)
  have htake : req.take 4 = str "GET " := by
    rw [hreq, List.append_assoc]
    exact List.take_left' hg4
  have hdrop : req.drop 4 = route ++ [d] := by
    rw [hreq, List.append_assoc]
    exact List.drop_left' hg4
  have hcstr : cstr (route ++ [d]) = route ++ [d] := by
    refine List.takeWhile_eq_self_iff.mpr ?_
    intro x hx
    rcases List.mem_append.mp hx with hx | hx
    · have := (routeChar_spec x (hclean x hx)).2
      simpa using this
    · have hxd : x = d := by simpa using hx
      subst hxd
      simpa using isDelim_ne_nul x hd
  obtain ⟨r0, rt, hr0⟩ : ∃ r0 rt, route = r0 :: rt := by
    cases hro : route with
    | nil => rw [hro] at hhead; simp at hhead
    | cons a b => exact ⟨a, b, rfl⟩
  have hr0slash : r0 = '/' := by
    rw [hr0] at hhead
    simpa using hhead
  have hdropw : (route ++ [d]).dropWhile (fun c => isDelim c) = route ++ [d] := by
    rw [hr0, List.cons_append, List.dropWhile_cons]
    have : isDelim r0 = false := by rw [hr0slash]; decide
    simp [this]
  have htok : strtokFirst (route ++ [d]) = some route := by
    simp only [strtokFirst, hdropw]
    rw [if_neg (by simp [hr0])]
    have : (route ++ [d]).takeWhile (fun c => !isDelim c) = route :=
      takeWhile_append_stop _ route d []
        (fun x hx => by simp [(routeChar_spec x (hclean x hx)).1]) (by simp [hd])
    rw [this]
  simp only [child_handle_client, hsr, htake, hdrop, hcstr, htok]
  rw [if_neg (by simp)]
  rw [if_neg (by rw [hhead]; simp)]
  rw [hfind]

theorem mem_stripIndexRoute (rel : Bytes) (ch : Char)
    (h : ch ∈ stripIndexRoute rel) : ch = '/' ∨ ch ∈ rel := by
  simp only [stripIndexRoute] at h
  by_cases hc : rel.length ≥ index_suffix.length ∧
      rel.drop (rel.length - index_suffix.length) = index_suffix
  · rw [if_pos hc] at h
    by_cases hr : rel.take (rel.length - index_suffix.length) = []
    · rw [if_pos hr] at h
      exact Or.inl (by simpa using h)
    · rw [if_neg hr] at h
      exact Or.inr (List.take_subset _ _ h)
  · rw [if_neg hc] at h
    exact Or.inr h

theorem mem_joinComps (X : List Bytes) (ch : Char) (h : ch ∈ joinComps X) :
    ch = '/' ∨ ∃ c ∈ X, ch ∈ c := by
  induction X with
  | nil => simp [joinComps] at h
  | cons c rest ih =>
      simp only [joinComps, List.mem_cons, List.mem_append] at h
      rcases h with h | h | h
      · exact Or.inl h
      · exact Or.inr ⟨c, by simp, h⟩
      · rcases ih h with h | ⟨c2, hc2, hm⟩
        · exact Or.inl h
        · exact Or.inr ⟨c2, List.mem_cons_of_mem c hc2, hm⟩

theorem routeOf_clean (comps : List Bytes)
    (hclean : ∀ c ∈ comps, ∀ ch ∈ c, routeChar ch = true) :
    ∀ ch ∈ routeOfComps comps, routeChar ch = true := by
  intro ch hch
  rcases mem_stripIndexRoute _ ch hch with h | h
  · subst h; decide
  · rcases mem_joinComps comps ch h with h | ⟨c, hc, hm⟩
    · subst h; decide
    · exact hclean c hc ch hm

theorem routeOf_head_slash (comps : List Bytes) (hne : comps ≠ [])
    (hg : ∀ c ∈ comps, goodName c = true) :
    (routeOfComps comps).head? = some '/' := by
  by_cases hlast : comps.getLast? = some (str "index.html")
  · have hdec : comps.dropLast ++ [str "index.html"] = comps :=
      List.dropLast_append_getLast? _ hlast
    rw [← hdec, routeOf_strip]
    by_cases hdl : comps.dropLast = []
    · rw [if_pos hdl]; rfl
    · rw [if_neg hdl]
      cases hd : comps.dropLast with
      | nil => exact absurd hd hdl
      | cons c t => simp [joinComps]
  · rw [routeOf_no_strip comps hg hlast]
    cases comps with
    | nil => exact absurd rfl hne
    | cons c t => simp [joinComps]

/-! ## C1 — files are served byte-identically at their canonical route -/

/-- C1 (amended): for every non-dot regular file that the scan accepts
— reached through components none of which is dot-named, in a
well-formed tree under a root path with no trailing slash and not
itself dot-named — *whose route contains no `strtok` delimiter (space,
CR, LF, TAB) and no NUL byte*, a connection sending `GET `, the
canonical route and a delimiter receives status `200 OK`, a body that
is byte-identical to the bytes read at scan time (the first `stat`
bytes of the file), and a `Content-Length` equal to the file's stat
size.  (As stated the claim is false: a route containing a delimiter
byte, e.g. from a file name with a space, is truncated by `strtok_r`
and cannot be requested — see `C1_counterexample`.) -/
theorem C1_file_served (rootB : Bytes) (es : EntryList) (comps : List Bytes)
    (stat : Nat) (content nf : Bytes) (res : ScanState) (d : Char)
    (hwf : wfL es = true)
    (hroot : stripTrail rootB = rootB)
    (hrootdot : dotName rootB = false)
    (hscan : scan_web_root rootB (.dir es) = .ok res)
    (hfile : fileAtL es comps = some (stat, content))
    (hnodot : ∀ c ∈ comps, dotName c = false)
    (hclean : ∀ c ∈ comps, ∀ ch ∈ c, routeChar ch = true)
    (hd : isDelim d = true) :
    child_handle_client res.table nf res.maxLen
        [.chunk (str "GET " ++ routeOfComps comps ++ [d])]
      = (responseHeader (str "200 OK") stat ++ content.take stat, .ok) := by
  have hok : scanL rootB.length rootB es ⟨[], 0⟩ = .ok res := by
    simpa [scan_web_root, resolveRoot, scanEntry, hrootdot] using hscan
  have hfp : rootB = rootB ++ joinComps ([] : List Bytes) := by simp [joinComps]
  obtain ⟨h1, h2, h3⟩ := scanL_serves rootB [] rootB.length rootB es ⟨[], 0⟩ res
    stat content comps hwf (by intro c hc; simp at hc) hfp rfl hroot hfile
    hnodot rfl hok
  rw [List.nil_append] at h2 h3
  have hgood : ∀ c ∈ comps, goodName c = true :=
    fileAtL_good es comps stat content hwf hfile
  have hne : comps ≠ [] := by
    intro h; subst h; exact fileAtL_ne_nil es _ hfile
  have hres := handler_route_hit res.table nf res.maxLen (routeOfComps comps)
    (content.take stat) d h2 h3 (routeOf_head_slash comps hne hgood)
    (routeOf_clean comps hclean) hd
  rw [hres]
  have hl : (content.take stat).length = stat := by
    rw [List.length_take]
    omega
  rw [hl]

/-- Witness for C1: root `r` holding one file `a` with body `x`;
`GET /a ` answers `200 OK` with `Content-Length: 1` and body `x`. -/
theorem C1_file_served_witness :
    child_handle_client [(str "/a", str "x")] (str "/404.html") 2
        [.chunk (str "GET " ++ routeOfComps [str "a"] ++ [' '])]
      = (responseHeader (str "200 OK") 1 ++ (str "x").take 1, .ok) :=
  C1_file_served (str "r") (.cons (str "a") (.file 1 (str "x")) .nil)
    [str "a"] 1 (str "x") (str "/404.html") ⟨[(str "/a", str "x")], 2⟩ ' '
    (by decide) (by decide) (by decide) rfl (by decide) (by decide)
    (by decide) (by decide)

/-- Counterexample to C1 as stated: a file whose name holds a space is
accepted by the scan and routed at `/a b`, but `strtok_r` cuts the
requested path at the space, so `GET /a b ` followed by a delimiter
looks up `/a`, misses, and the worker dies on the not-found fallback
instead of serving the file's bytes. -/
theorem C1_counterexample :
    scan_web_root (str "r") (.dir (.cons (str "a b") (.file 1 (str "x")) .nil))
      = .ok ⟨[(str "/a b", str "x")], 4⟩
    ∧ child_handle_client [(str "/a b", str "x")] (str "/404.html") 4
        [.chunk (str "GET /a b ")]
      = (str "HTTP/1.1 404 NOT FOUND\r\nContent-Length: 13\r\n\r\n404 NOT FOUND",
         .fatalExit EXIT_NOTFOUND_NOT_FOUND) := ⟨rfl, rfl⟩

/-! ## C2 — index.html routes, universally -/

/-- C2 (amended): for *every* directory containing a file named
`index.html` — any directory name, nested at any depth in a
well-formed tree under a root path with no trailing slash and not
itself dot-named, reached through non-dot components — the scanner
inserts a route equal to the directory's root-relative joined path
*without* a trailing slash (`.../dir/index.html` is served at
`.../dir`), carrying the file's bytes; when that directory is the web
root itself (`P = []`) the route collapses to exactly `/`. -/
theorem C2_index_routes (rootB : Bytes) (es : EntryList) (P : List Bytes)
    (stat : Nat) (content : Bytes) (res : ScanState)
    (hwf : wfL es = true)
    (hroot : stripTrail rootB = rootB)
    (hrootdot : dotName rootB = false)
    (hscan : scan_web_root rootB (.dir es) = .ok res)
    (hfile : fileAtL es (P ++ [str "index.html"]) = some (stat, content))
    (hnodot : ∀ c ∈ P, dotName c = false) :
    routeOfComps (P ++ [str "index.html"])
      = (if P = [] then ['/'] else joinComps P)
    ∧ hsearchFind res.table (if P = [] then ['/'] else joinComps P)
      = some (content.take stat) := by
  have hok : scanL rootB.length rootB es ⟨[], 0⟩ = .ok res := by
    simpa [scan_web_root, resolveRoot, scanEntry, hrootdot] using hscan
  have hfp : rootB = rootB ++ joinComps ([] : List Bytes) := by simp [joinComps]
  have hnodot2 : ∀ c ∈ P ++ [str "index.html"], dotName c = false := by
    intro c hc
    rcases List.mem_append.mp hc with hc | hc
    · exact hnodot c hc
    · rcases List.mem_singleton.mp hc with rfl
      decide
  obtain ⟨h1, h2, h3⟩ := scanL_serves rootB [] rootB.length rootB es ⟨[], 0⟩ res
    stat content (P ++ [str "index.html"]) hwf (by intro c hc; simp at hc) hfp
    rfl hroot hfile hnodot2 rfl hok
  rw [List.nil_append, routeOf_strip] at h2
  exact ⟨routeOf_strip P, h2⟩

/-- Witness for C2: both shapes at once — `d/index.html` in root `r` is
registered at `/d`, and a root-level `index.html` at exactly `/`. -/
theorem C2_index_routes_witness :
    (routeOfComps [str "d", str "index.html"]
        = (if [str "d"] = ([] : List Bytes) then ['/'] else joinComps [str "d"])
      ∧ hsearchFind [(str "/d", str "x")]
          (if [str "d"] = ([] : List Bytes) then ['/'] else joinComps [str "d"])
        = some ((str "x").take 1))
    ∧ (routeOfComps [str "index.html"]
        = (if ([] : List Bytes) = ([] : List Bytes) then ['/']
           else joinComps ([] : List Bytes))
      ∧ hsearchFind [(str "/", str "y")]
          (if ([] : List Bytes) = ([] : List Bytes) then ['/']
           else joinComps ([] : List Bytes))
        = some ((str "y").take 1)) :=
  ⟨C2_index_routes (str "r")
      (.cons (str "d")
        (.dir (.cons (str "index.html") (.file 1 (str "x")) .nil)) .nil)
      [str "d"] 1 (str "x") ⟨[(str "/d", str "x")], 2⟩
      (by decide) (by decide) (by decide) rfl (by decide) (by decide),
   C2_index_routes (str "r")
      (.cons (str "index.html") (.file 1 (str "y")) .nil)
      [] 1 (str "y") ⟨[(str "/", str "y")], 1⟩
      (by decide) (by decide) (by decide) rfl (by decide) (by decide)⟩
